import Mathlib

/-!
Verification development for the dictionary key-management engine of the
cudf repository (dictionary update-keys operations declared in
cpp/include/cudf/dictionary/detail/update_keys.hpp) and the scalar
factories of cpp/include/cudf/scalar/scalar_factories.hpp.

The repository ships only the declarations of the dictionary operations;
their behaviour is therefore modelled from the specification (spec.md,
sections 3, 4 and 7).  The scalar factory bodies are present in the
header and are embedded directly.
-/

namespace CudfDict

/-- Modelled from the spec: DictionaryColumn (section 3) — the triple
(keys, indices, validity); the implementation of the dictionary column
type is not under src.  `keys` is the KeySet, `indices` the per-row
positions into it, `validity` the per-row null indicator (`true` = valid). -/
structure DictionaryColumn (α : Type) where
  keys : List α
  indices : List Nat
  validity : List Bool
deriving DecidableEq

/-- Number of rows of a dictionary column (length of the validity bitmap). -/
def rowCount {α : Type} (c : DictionaryColumn α) : Nat := c.validity.length

/-- Modelled from the spec: the DictionaryColumn invariants of section 3 —
indices and validity have equal length, keys are strictly increasing
(no duplicates), and every valid row's index is in bounds. -/
def wf {α : Type} [LinearOrder α] (c : DictionaryColumn α) : Prop :=
  c.indices.length = c.validity.length ∧
  List.Pairwise (fun a b => a < b) c.keys ∧
  ∀ i, i < c.indices.length → c.validity.getD i false = true →
    c.indices.getD i 0 < c.keys.length

/-- Logical value of row i: null (none) if the row is invalid, otherwise
keys[indices[i]] (section 3). -/
def logicalValue {α : Type} (c : DictionaryColumn α) (i : Nat) : Option α :=
  match c.validity[i]?, c.indices[i]? with
  | some true, some d => c.keys[d]?
  | _, _ => none

/-- Modelled from the spec: union(A, B) (section 4.1) — merge-union of two
sorted KeySets; ties keep the instance from A.  The implementation is not
under src. -/
def keyUnion {α : Type} [LinearOrder α] : List α → List α → List α
  | [], B => B
  | a :: A, [] => a :: A
  | a :: A, b :: B =>
    if a < b then a :: keyUnion A (b :: B)
    else if b < a then b :: keyUnion (a :: A) B
    else a :: keyUnion A B
termination_by A B => A.length + B.length

/-- Modelled from the spec: difference(A, B) (section 4.1) — values in A not
present in B, preserving sort order.  The implementation is not under src. -/
def keyDifference {α : Type} [DecidableEq α] (A B : List α) : List α :=
  A.filter (fun a => decide (a ∉ B))

/-- Modelled from the spec: position of a value in a KeySet, or absent
(the per-element view of positions_of, section 4.1). -/
def posIn {α : Type} [DecidableEq α] (a : α) : List α → Option Nat
  | [] => none
  | b :: B => if b = a then some 0 else Option.map (fun p => p + 1) (posIn a B)

/-- Modelled from the spec: positions_of(A, B) (section 4.1) — for each value
in A, its integer position in B if present, else absent. -/
def positions_of {α : Type} [DecidableEq α] (A B : List α) : List (Option Nat) :=
  A.map (fun a => posIn a B)

/-- Modelled from the spec: one row of the Index Remapper (section 4.2) —
a null row stays null (index 0 reused); a valid row whose key maps to
absent becomes null; a valid row whose key maps to position p gets index p
and stays valid. -/
def remapRow (rel : List (Option Nat)) (d : Nat) (v : Bool) : Nat × Bool :=
  if v then
    match rel.getD d none with
    | some p => (p, true)
    | none => (0, false)
  else (0, false)

/-- Row-parallel application of remapRow over the paired index and validity
sequences (section 4.2). -/
def remapRows (rel : List (Option Nat)) : List Nat → List Bool → List (Nat × Bool)
  | d :: ds, v :: vs => remapRow rel d v :: remapRows rel ds vs
  | _, _ => []

/-- Modelled from the spec: remap (section 4.2) — produces the new index
array and the new validity bitmap. -/
def remap (indices : List Nat) (validity : List Bool) (rel : List (Option Nat)) :
    List Nat × List Bool :=
  ((remapRows rel indices validity).map Prod.fst,
   (remapRows rel indices validity).map Prod.snd)

/-- Modelled from the spec: the common shape of the Dictionary Column
Mutators (section 4.3) — build one KeySet result, the relation
positions_of(dict.keys, result keys), and call remap (section 4.2). -/
def rekey {α : Type} [DecidableEq α] (dict : DictionaryColumn α) (newKeys : List α) :
    DictionaryColumn α :=
  DictionaryColumn.mk newKeys
    (remap dict.indices dict.validity (positions_of dict.keys newKeys)).1
    (remap dict.indices dict.validity (positions_of dict.keys newKeys)).2

/-- Modelled from the spec: non_null — null entries inside an input key-list
argument are ignored, never become a key (section 4.3). -/
def non_null {α : Type} (l : List (Option α)) : List α := l.filterMap id

/-- Modelled from the spec: dedup of a key-list argument (section 4.3),
producing a sorted duplicate-free KeySet by repeated merge-union. -/
def sortDedup {α : Type} [LinearOrder α] (l : List α) : List α :=
  l.foldr (fun a acc => keyUnion [a] acc) []

/-- Modelled from the spec: add_keys (section 4.3) — new key set
union(dict.keys, dedup(non_null(new_keys))), relation
positions_of(dict.keys, result keys), then remap.  Only the declaration is
under src (update_keys.hpp lines 34-38). -/
def add_keys {α : Type} [LinearOrder α] (dict : DictionaryColumn α)
    (new_keys : List (Option α)) : DictionaryColumn α :=
  rekey dict (keyUnion dict.keys (sortDedup (non_null new_keys)))

/-- Modelled from the spec: remove_keys (section 4.3) — new key set
difference(dict.keys, dedup(keys_to_remove)), relation
positions_of(dict.keys, result keys), then remap.  Only the declaration is
under src (update_keys.hpp lines 46-50). -/
def remove_keys {α : Type} [LinearOrder α] (dict : DictionaryColumn α)
    (keys_to_remove : List α) : DictionaryColumn α :=
  rekey dict (keyDifference dict.keys (sortDedup keys_to_remove))

/-- Modelled from the spec: set_keys (section 4.3) — new key set
dedup(non_null(new_keys)), relation positions_of(dict.keys, new keys),
then remap.  Only the declaration is under src (update_keys.hpp
lines 69-73). -/
def set_keys {α : Type} [LinearOrder α] (dict : DictionaryColumn α)
    (new_keys : List (Option α)) : DictionaryColumn α :=
  rekey dict (sortDedup (non_null new_keys))

/-- Modelled from the spec: the used/unused marker over key positions for
remove_unused_keys (section 4.3) — key position j is used when some valid
row references it. -/
def key_used (j : Nat) : List Nat → List Bool → Bool
  | d :: ds, v :: vs => (v && decide (d = j)) || key_used j ds vs
  | _, _ => false

/-- Key positions of the dictionary referenced by at least one valid row,
in increasing order (section 4.3). -/
def keptPositions {α : Type} (dict : DictionaryColumn α) : List Nat :=
  (List.range dict.keys.length).filter
    (fun j => key_used j dict.indices dict.validity)

/-- Number of used key positions strictly before position j — the compacted
position of a kept key (prefix-sum over the kept markers, section 4.3). -/
def usedBefore {α : Type} (dict : DictionaryColumn α) (j : Nat) : Nat :=
  ((List.range j).filter (fun k => key_used k dict.indices dict.validity)).length

/-- Modelled from the spec: the relation built from the used/unused markers
over key positions, compacted with a prefix-sum over the kept markers
(section 4.3) — a used key position j maps to its compacted position, an
unused one to absent. -/
def relUnused {α : Type} (dict : DictionaryColumn α) : List (Option Nat) :=
  (List.range dict.keys.length).map (fun j =>
    if key_used j dict.indices dict.validity then some (usedBefore dict j)
    else none)

/-- Modelled from the spec: remove_unused_keys (section 4.3) — keeps the
subset of dict.keys at positions referenced by at least one valid row,
builds the relation from the used/unused markers compacted by prefix-sum,
then remaps.  Only the declaration is under src (update_keys.hpp
lines 58-61). -/
def remove_unused_keys {α : Type} (dict : DictionaryColumn α) : DictionaryColumn α :=
  DictionaryColumn.mk
    ((keptPositions dict).filterMap (fun j => dict.keys[j]?))
    (remap dict.indices dict.validity (relUnused dict)).1
    (remap dict.indices dict.validity (relUnused dict)).2

/-- Modelled from the spec: the N-way fold of pairwise union building the
merged key set of the Cross-Column Matcher (section 4.4, step 1). -/
def merged_keys {α : Type} [LinearOrder α] (cols : List (DictionaryColumn α)) : List α :=
  cols.foldl (fun acc c => keyUnion acc c.keys) []

/-- Modelled from the spec: re-keying of one column against the merged key
set (section 4.4, step 2). -/
def match_one {α : Type} [DecidableEq α] (merged : List α) (c : DictionaryColumn α) :
    DictionaryColumn α :=
  rekey c merged

/-- Modelled from the spec: match_columns (section 4.4) — the merged key set
is the fold of pairwise union over all input key sets, and every column is
remapped against it.  Only the declaration is under src (update_keys.hpp
lines 81-84, match_dictionaries over a span of columns). -/
def match_columns {α : Type} [LinearOrder α] (cols : List (DictionaryColumn α)) :
    List (DictionaryColumn α) :=
  cols.map (match_one (merged_keys cols))

/-- Modelled from the spec: a column of a ColumnGroup (section 3) — either a
dictionary column or an opaque pass-through column of any other encoding. -/
inductive TableColumn (α β : Type) where
  | dict (d : DictionaryColumn α)
  | other (o : β)
deriving DecidableEq

/-- Row count of a table column: for dictionary columns the validity length,
for pass-through columns an opaque count supplied by the carrier. -/
def columnRowCount {α β : Type} (rc : β → Nat) : TableColumn α β → Nat
  | TableColumn.dict d => rowCount d
  | TableColumn.other o => rc o

/-- The dictionary column at schema position k of a group, when position k is
dictionary-typed. -/
def dictAt {α β : Type} (g : List (TableColumn α β)) (k : Nat) :
    Option (DictionaryColumn α) :=
  match g[k]? with
  | some (TableColumn.dict d) => some d
  | _ => none

/-- Modelled from the spec: gather of the columns at schema position k from
every group (section 4.5). -/
def columnsAt {α β : Type} (groups : List (List (TableColumn α β))) (k : Nat) :
    List (DictionaryColumn α) :=
  groups.filterMap (fun g => dictAt g k)

/-- Map with the element's position, starting from a given offset. -/
def mapFrom {σ τ : Type} (f : Nat → σ → τ) : Nat → List σ → List τ
  | _, [] => []
  | i, x :: xs => f i x :: mapFrom f (i + 1) xs

/-- Modelled from the spec: match_tables (section 4.5) — for every schema
position that is dictionary-typed, gather the columns at that position from
every group, match them (section 4.4) and substitute the results back; every
non-dictionary column is copied unchanged.  Only the declaration is under
src (update_keys.hpp lines 105-108, match_dictionaries over tables). -/
def match_tables {α β : Type} [LinearOrder α]
    (groups : List (List (TableColumn α β))) : List (List (TableColumn α β)) :=
  mapFrom (fun gi g =>
    mapFrom (fun k c =>
      match c with
      | TableColumn.dict d =>
        TableColumn.dict ((match_columns (columnsAt groups k)).getD gi d)
      | TableColumn.other o => TableColumn.other o) 0 g) 0 groups

/-- Modelled from the spec: the error kinds of section 7. -/
inductive DictError where
  | InvalidArgument
  | AllocationFailure
  | AsyncExecutionError
deriving DecidableEq

/-- Modelled from the spec: the closed set of tagged value-domain variants
(section 9, design note on virtual dispatch). -/
inductive DomainTag where
  | numeric
  | timestamp
  | duration
  | text
  | nested
deriving DecidableEq

/-- A dictionary column together with the type tag of its value domain. -/
structure TypedDictColumn (α : Type) where
  tag : DomainTag
  dict : DictionaryColumn α

/-- Modelled from the spec: an input column at the API boundary — either
dictionary-encoded or not (section 7, InvalidArgument conditions). -/
inductive InputColumn (α : Type) where
  | dictionary (d : TypedDictColumn α)
  | non_dictionary (tag : DomainTag)

/-- A nullable key-list argument together with the type tag of its domain. -/
structure TypedKeyList (α : Type) where
  tag : DomainTag
  keys : List (Option α)

/-- A null-free key-list argument together with the type tag of its domain. -/
structure TypedKeys (α : Type) where
  tag : DomainTag
  keys : List α

/-- Modelled from the spec: add_keys with its failure conditions
(sections 4.3 and 7) — InvalidArgument when the input column is not
dictionary-encoded or the value domains differ in type. -/
def checked_add_keys {α : Type} [LinearOrder α] (c : InputColumn α)
    (ks : TypedKeyList α) : Except DictError (DictionaryColumn α) :=
  match c with
  | InputColumn.non_dictionary _ => Except.error DictError.InvalidArgument
  | InputColumn.dictionary d =>
    if d.tag = ks.tag then Except.ok (add_keys d.dict ks.keys)
    else Except.error DictError.InvalidArgument

/-- Modelled from the spec: remove_keys with its failure conditions
(sections 4.3 and 7). -/
def checked_remove_keys {α : Type} [LinearOrder α] (c : InputColumn α)
    (ks : TypedKeys α) : Except DictError (DictionaryColumn α) :=
  match c with
  | InputColumn.non_dictionary _ => Except.error DictError.InvalidArgument
  | InputColumn.dictionary d =>
    if d.tag = ks.tag then Except.ok (remove_keys d.dict ks.keys)
    else Except.error DictError.InvalidArgument

/-- Modelled from the spec: remove_unused_keys with its failure condition
(sections 4.3 and 7) — it takes no key-list argument, so only the
non-dictionary-input condition applies. -/
def checked_remove_unused_keys {α : Type} [LinearOrder α] (c : InputColumn α) :
    Except DictError (DictionaryColumn α) :=
  match c with
  | InputColumn.non_dictionary _ => Except.error DictError.InvalidArgument
  | InputColumn.dictionary d => Except.ok (remove_unused_keys d.dict)

/-- Modelled from the spec: set_keys with its failure conditions
(sections 4.3 and 7). -/
def checked_set_keys {α : Type} [LinearOrder α] (c : InputColumn α)
    (ks : TypedKeyList α) : Except DictError (DictionaryColumn α) :=
  match c with
  | InputColumn.non_dictionary _ => Except.error DictError.InvalidArgument
  | InputColumn.dictionary d =>
    if d.tag = ks.tag then Except.ok (set_keys d.dict ks.keys)
    else Except.error DictError.InvalidArgument

/-- Whether an input column is dictionary-encoded. -/
def isDictionary {α : Type} : InputColumn α → Bool
  | InputColumn.dictionary _ => true
  | InputColumn.non_dictionary _ => false

/-- The domain tag of an input column. -/
def inputTag {α : Type} : InputColumn α → DomainTag
  | InputColumn.dictionary d => d.tag
  | InputColumn.non_dictionary t => t

instance {α : Type} [LinearOrder α] (c : DictionaryColumn α) : Decidable (wf c) := by
  unfold wf
  infer_instance


/-- Concrete example dictionary: the section 8 scenario of the spec with
numeric keys 10 < 20 < 30 standing for the keys a < b < c, indices
[0, 2, 1, 0], all rows valid. -/
def exDict : DictionaryColumn Nat :=
  DictionaryColumn.mk [10, 20, 30] [0, 2, 1, 0] [true, true, true, true]

/-- Concrete example dictionary with an unused key (20) and a null row. -/
def exDict2 : DictionaryColumn Nat :=
  DictionaryColumn.mk [10, 20, 30] [0, 0, 2, 0] [true, true, true, false]

/-- A second concrete dictionary over the same domain for cross-column
matching examples. -/
def exDictB : DictionaryColumn Nat :=
  DictionaryColumn.mk [15, 20] [1, 0] [true, true]

/-- Concrete column list for the Cross-Column Matcher examples. -/
def exCols : List (DictionaryColumn Nat) := [exDict, exDictB]

/-- Concrete column groups sharing a schema (dictionary at position 0,
pass-through at position 1) for the Cross-Table Matcher examples. -/
def exGroups : List (List (TableColumn Nat String)) :=
  [[TableColumn.dict exDict, TableColumn.other "p"],
   [TableColumn.dict exDictB, TableColumn.other "q"]]

end CudfDict

namespace CudfScalar

/-- State of a cudf fixed-width scalar relevant to the factories: the stored
value and the validity flag (scalar.hpp is not under src; the factory bodies
in scalar_factories.hpp pass the value and the is_valid flag through to the
scalar constructor). -/
structure Scalar (τ : Type) where
  value : τ
  is_valid : Bool
deriving DecidableEq

/-- State of a cudf fixed-point scalar relevant to the factory: stored value,
scale, and the validity flag. -/
structure FixedPointScalar (τ : Type) where
  value : τ
  scale : Int
  is_valid : Bool
deriving DecidableEq

/-- Embedding of the templated factory make_fixed_width_scalar
(scalar_factories.hpp lines 146-153): it constructs scalar_type_t of T from
(value, true), so the validity flag is always set. -/
def make_fixed_width_scalar {τ : Type} (value : τ) : Scalar τ :=
  Scalar.mk value true

/-- Embedding of the templated factory make_fixed_point_scalar
(scalar_factories.hpp lines 164-172): it constructs scalar_type_t of T from
(value, scale, true), so the validity flag is always set. -/
def make_fixed_point_scalar {τ : Type} (value : τ) (scale : Int) :
    FixedPointScalar τ :=
  FixedPointScalar.mk value scale true

end CudfScalar

namespace CudfDict

theorem mem_keyUnion {α : Type} [LinearOrder α] {A B : List α} {x : α} :
    x ∈ keyUnion A B ↔ x ∈ A ∨ x ∈ B := by
  induction A, B using keyUnion.induct with
  | case1 B => simp [keyUnion]
  | case2 a A => simp [keyUnion]
  | case3 a A b B hab ih =>
    simp only [keyUnion, if_pos hab, List.mem_cons, ih]
    tauto
  | case4 a A b B hab hba ih =>
    simp only [keyUnion, if_neg hab, if_pos hba, List.mem_cons, ih]
    tauto
  | case5 a A b B hab hba ih =>
    have hab' : a = b := le_antisymm (le_of_not_lt hba) (le_of_not_lt hab)
    subst hab'
    simp only [keyUnion, if_neg hab, if_neg hba, List.mem_cons, ih]
    tauto

theorem sorted_keyUnion {α : Type} [LinearOrder α] {A B : List α}
    (hA : List.Pairwise (fun a b => a < b) A)
    (hB : List.Pairwise (fun a b => a < b) B) :
    List.Pairwise (fun a b => a < b) (keyUnion A B) := by
  induction A, B using keyUnion.induct with
  | case1 B => simpa [keyUnion] using hB
  | case2 a A => simpa [keyUnion] using hA
  | case3 a A b B hab ih =>
    rw [List.pairwise_cons] at hA hB
    simp only [keyUnion, if_pos hab, List.pairwise_cons]
    refine ⟨?_, ih hA.2 (List.pairwise_cons.mpr hB)⟩
    intro y hy
    rcases mem_keyUnion.mp hy with h | h
    · exact hA.1 y h
    · rcases List.mem_cons.mp h with rfl | h
      · exact hab
      · exact lt_trans hab (hB.1 y h)
  | case4 a A b B hab hba ih =>
    rw [List.pairwise_cons] at hA hB
    simp only [keyUnion, if_neg hab, if_pos hba, List.pairwise_cons]
    refine ⟨?_, ih (List.pairwise_cons.mpr hA) hB.2⟩
    intro y hy
    rcases mem_keyUnion.mp hy with h | h
    · rcases List.mem_cons.mp h with rfl | h
      · exact hba
      · exact lt_trans hba (hA.1 y h)
    · exact hB.1 y h
  | case5 a A b B hab hba ih =>
    have hab' : a = b := le_antisymm (le_of_not_lt hba) (le_of_not_lt hab)
    subst hab'
    rw [List.pairwise_cons] at hA hB
    simp only [keyUnion, if_neg hab, if_neg hba, List.pairwise_cons]
    refine ⟨?_, ih hA.2 hB.2⟩
    intro y hy
    rcases mem_keyUnion.mp hy with h | h
    · exact hA.1 y h
    · exact hB.1 y h

theorem mem_keyDifference {α : Type} [DecidableEq α] {A B : List α} {x : α} :
    x ∈ keyDifference A B ↔ x ∈ A ∧ x ∉ B := by
  simp [keyDifference, List.mem_filter]

theorem sorted_keyDifference {α : Type} [LinearOrder α] {A B : List α}
    (hA : List.Pairwise (fun a b => a < b) A) :
    List.Pairwise (fun a b => a < b) (keyDifference A B) :=
  List.Pairwise.sublist (List.filter_sublist A) hA

theorem posIn_eq_none {α : Type} [DecidableEq α] {a : α} {B : List α} :
    posIn a B = none ↔ a ∉ B := by
  induction B with
  | nil => simp [posIn]
  | cons b B ih =>
    by_cases hb : b = a
    · subst hb
      simp [posIn]
    · simp [posIn, hb, ih, Option.map_eq_none', Ne.symm hb]

theorem posIn_eq_some {α : Type} [DecidableEq α] {a : α} {B : List α} {p : Nat}
    (h : posIn a B = some p) : B[p]? = some a := by
  induction B generalizing p with
  | nil => simp [posIn] at h
  | cons b B ih =>
    by_cases hb : b = a
    · subst hb
      simp [posIn] at h
      subst h
      simp
    · simp only [posIn, if_neg hb, Option.map_eq_some'] at h
      obtain ⟨q, hq, hp⟩ := h
      subst hp
      simpa using ih hq

theorem posIn_isSome_of_mem {α : Type} [DecidableEq α] {a : α} {B : List α}
    (h : a ∈ B) : (posIn a B).isSome = true := by
  induction B with
  | nil => simp at h
  | cons b B ih =>
    by_cases hb : b = a
    · subst hb
      simp [posIn]
    · rcases List.mem_cons.mp h with rfl | h
      · exact absurd rfl hb
      · simp only [posIn, if_neg hb]
        rcases Option.isSome_iff_exists.mp (ih h) with ⟨q, hq⟩
        simp [hq]

theorem posIn_lt_length {α : Type} [DecidableEq α] {a : α} {B : List α} {p : Nat}
    (h : posIn a B = some p) : p < B.length := by
  have := posIn_eq_some h
  exact (List.getElem?_eq_some.mp this).1

theorem remapRows_getElem? (rel : List (Option Nat)) (ds : List Nat) (vs : List Bool)
    (i : Nat) :
    (remapRows rel ds vs)[i]? =
      ds[i]?.bind (fun d => vs[i]?.map (fun v => remapRow rel d v)) := by
  induction ds generalizing vs i with
  | nil => cases vs <;> simp [remapRows]
  | cons d ds ih =>
    cases vs with
    | nil => simp [remapRows]
    | cons v vs =>
      cases i with
      | zero => simp [remapRows]
      | succ i => simpa [remapRows] using ih vs i

theorem remapRows_length (rel : List (Option Nat)) (ds : List Nat) (vs : List Bool) :
    (remapRows rel ds vs).length = min ds.length vs.length := by
  induction ds generalizing vs with
  | nil => cases vs <;> simp [remapRows]
  | cons d ds ih =>
    cases vs with
    | nil => simp [remapRows]
    | cons v vs =>
      simp only [remapRows, List.length_cons, ih]
      omega

theorem remapRow_false (rel : List (Option Nat)) (d : Nat) :
    remapRow rel d false = (0, false) := rfl

theorem positions_of_getElem? {α : Type} [DecidableEq α] {keys K : List α} {d : Nat}
    (hd : d < keys.length) :
    (positions_of keys K)[d]? = some (posIn keys[d] K) := by
  simp [positions_of, List.getElem?_eq_getElem hd]

theorem remapRow_true_some {α : Type} [DecidableEq α] {keys K : List α} {d p : Nat}
    (hd : d < keys.length) (hp : posIn keys[d] K = some p) :
    remapRow (positions_of keys K) d true = (p, true) := by
  simp [remapRow, positions_of_getElem? hd, hp]

theorem remapRow_true_none {α : Type} [DecidableEq α] {keys K : List α} {d : Nat}
    (hd : d < keys.length) (hp : posIn keys[d] K = none) :
    remapRow (positions_of keys K) d true = (0, false) := by
  simp [remapRow, positions_of_getElem? hd, hp]

theorem remapRow_true_oob {α : Type} [DecidableEq α] {keys K : List α} {d : Nat}
    (hd : keys.length ≤ d) :
    remapRow (positions_of keys K) d true = (0, false) := by
  have hlen : (positions_of keys K).length ≤ d := by
    simpa [positions_of] using hd
  simp [remapRow, List.getD_eq_getElem?_getD, List.getElem?_eq_none hlen]

theorem rekey_keys {α : Type} [DecidableEq α] (dict : DictionaryColumn α)
    (K : List α) : (rekey dict K).keys = K := rfl

theorem rekey_row {α : Type} [DecidableEq α] {dict : DictionaryColumn α}
    {K : List α} {i d : Nat} {v : Bool}
    (hd : dict.indices[i]? = some d) (hv : dict.validity[i]? = some v) :
    (rekey dict K).indices[i]? =
      some (remapRow (positions_of dict.keys K) d v).1 ∧
    (rekey dict K).validity[i]? =
      some (remapRow (positions_of dict.keys K) d v).2 := by
  constructor <;>
    simp [rekey, remap, remapRows_getElem?, hd, hv]

theorem rekey_lengths {α : Type} [DecidableEq α] (dict : DictionaryColumn α)
    (K : List α) :
    (rekey dict K).indices.length = min dict.indices.length dict.validity.length ∧
    (rekey dict K).validity.length = min dict.indices.length dict.validity.length := by
  constructor <;> simp [rekey, remap, remapRows_length]

theorem rekey_rowCount {α : Type} [LinearOrder α] {dict : DictionaryColumn α}
    (hwf : wf dict) (K : List α) : rowCount (rekey dict K) = rowCount dict := by
  have h := (rekey_lengths dict K).2
  have h1 := hwf.1
  simp only [rowCount] at *
  omega

theorem wf_index_lt {α : Type} [LinearOrder α] {dict : DictionaryColumn α}
    (hwf : wf dict) {i d : Nat}
    (hd : dict.indices[i]? = some d) (hv : dict.validity[i]? = some true) :
    d < dict.keys.length := by
  have hi : i < dict.indices.length := (List.getElem?_eq_some.mp hd).1
  have h2 := hwf.2.2 i hi (by simp [List.getD_eq_getElem?_getD, hv])
  simpa [List.getD_eq_getElem?_getD, hd] using h2

theorem logicalValue_valid {α : Type} {dict : DictionaryColumn α} {i d : Nat}
    (hd : dict.indices[i]? = some d) (hv : dict.validity[i]? = some true) :
    logicalValue dict i = dict.keys[d]? := by
  simp [logicalValue, hd, hv]

theorem logicalValue_null {α : Type} {dict : DictionaryColumn α} {i : Nat}
    (hv : dict.validity[i]? = some false) :
    logicalValue dict i = none := by
  cases hI : dict.indices[i]? <;> simp [logicalValue, hv, hI]

theorem rekey_logicalValue {α : Type} [LinearOrder α] {dict : DictionaryColumn α}
    {K : List α} (hwf : wf dict) {i : Nat} (hi : i < rowCount dict) :
    logicalValue (rekey dict K) i =
      (logicalValue dict i).bind (fun x => if x ∈ K then some x else none) := by
  have hiv : i < dict.validity.length := hi
  have hii : i < dict.indices.length := by rw [hwf.1]; exact hiv
  obtain ⟨d, hd⟩ : ∃ d, dict.indices[i]? = some d :=
    ⟨_, List.getElem?_eq_getElem hii⟩
  obtain ⟨v, hv⟩ : ∃ v, dict.validity[i]? = some v :=
    ⟨_, List.getElem?_eq_getElem hiv⟩
  cases v with
  | false =>
    have hr := rekey_row (K := K) hd hv
    rw [remapRow_false] at hr
    rw [logicalValue_null hv, logicalValue_null (by simpa using hr.2)]
    rfl
  | true =>
    have hdk := wf_index_lt hwf hd hv
    have hval : logicalValue dict i = some dict.keys[d] := by
      rw [logicalValue_valid hd hv, List.getElem?_eq_getElem hdk]
    by_cases hmem : dict.keys[d] ∈ K
    · obtain ⟨p, hp⟩ := Option.isSome_iff_exists.mp (posIn_isSome_of_mem hmem)
      have hr := rekey_row (K := K) hd hv
      rw [remapRow_true_some hdk hp] at hr
      rw [logicalValue_valid (by simpa using hr.1) (by simpa using hr.2), hval]
      simpa [rekey_keys, hmem] using posIn_eq_some hp
    · have hr := rekey_row (K := K) hd hv
      rw [remapRow_true_none hdk (posIn_eq_none.mpr hmem)] at hr
      rw [logicalValue_null (by simpa using hr.2), hval]
      simp [hmem]

theorem rekey_valid_iff {α : Type} [LinearOrder α] {dict : DictionaryColumn α}
    {K : List α} (hwf : wf dict) {i : Nat} (hi : i < rowCount dict) :
    (rekey dict K).validity[i]? = some true ↔
      dict.validity[i]? = some true ∧
        ∃ x, logicalValue dict i = some x ∧ x ∈ K := by
  have hiv : i < dict.validity.length := hi
  have hii : i < dict.indices.length := by rw [hwf.1]; exact hiv
  obtain ⟨d, hd⟩ : ∃ d, dict.indices[i]? = some d :=
    ⟨_, List.getElem?_eq_getElem hii⟩
  obtain ⟨v, hv⟩ : ∃ v, dict.validity[i]? = some v :=
    ⟨_, List.getElem?_eq_getElem hiv⟩
  cases v with
  | false =>
    have hr := rekey_row (K := K) hd hv
    rw [remapRow_false] at hr
    rw [hv, hr.2]
    simp [logicalValue_null hv]
  | true =>
    have hdk := wf_index_lt hwf hd hv
    have hval : logicalValue dict i = some dict.keys[d] := by
      rw [logicalValue_valid hd hv, List.getElem?_eq_getElem hdk]
    by_cases hmem : dict.keys[d] ∈ K
    · obtain ⟨p, hp⟩ := Option.isSome_iff_exists.mp (posIn_isSome_of_mem hmem)
      have hr := rekey_row (K := K) hd hv
      rw [remapRow_true_some hdk hp] at hr
      rw [hr.2, hv, hval]
      simpa using hmem
    · have hr := rekey_row (K := K) hd hv
      rw [remapRow_true_none hdk (posIn_eq_none.mpr hmem)] at hr
      rw [hr.2, hv, hval]
      simpa using hmem

theorem rekey_null {α : Type} [DecidableEq α] {dict : DictionaryColumn α}
    {K : List α} {i d : Nat}
    (hd : dict.indices[i]? = some d) (hv : dict.validity[i]? = some false) :
    (rekey dict K).validity[i]? = some false := by
  have hr := rekey_row (K := K) hd hv
  rw [remapRow_false] at hr
  simpa using hr.2

theorem rekey_wf {α : Type} [LinearOrder α] {dict : DictionaryColumn α}
    {K : List α}
    (hK : List.Pairwise (fun a b => a < b) K) : wf (rekey dict K) := by
  refine ⟨?_, hK, ?_⟩
  · rw [(rekey_lengths dict K).1, (rekey_lengths dict K).2]
  · intro i hi hvalid
    rw [(rekey_lengths dict K).1] at hi
    have hii : i < dict.indices.length := lt_of_lt_of_le hi (Nat.min_le_left _ _)
    have hiv : i < dict.validity.length := lt_of_lt_of_le hi (Nat.min_le_right _ _)
    obtain ⟨d, hd⟩ : ∃ d, dict.indices[i]? = some d :=
      ⟨_, List.getElem?_eq_getElem hii⟩
    obtain ⟨v, hv⟩ : ∃ v, dict.validity[i]? = some v :=
      ⟨_, List.getElem?_eq_getElem hiv⟩
    have hr := rekey_row (K := K) hd hv
    rw [List.getD_eq_getElem?_getD, hr.2] at hvalid
    rw [List.getD_eq_getElem?_getD, hr.1]
    cases v with
    | false => rw [remapRow_false] at hvalid; simp at hvalid
    | true =>
      by_cases hdk : d < dict.keys.length
      · by_cases hmem : dict.keys[d] ∈ K
        · obtain ⟨p, hp⟩ :=
            Option.isSome_iff_exists.mp (posIn_isSome_of_mem hmem)
          rw [remapRow_true_some hdk hp]
          simpa [rekey_keys] using posIn_lt_length hp
        · rw [remapRow_true_none hdk (posIn_eq_none.mpr hmem)] at hvalid
          simp at hvalid
      · rw [remapRow_true_oob (Nat.le_of_not_lt hdk)] at hvalid
        simp at hvalid

theorem mem_sortDedup {α : Type} [LinearOrder α] {l : List α} {x : α} :
    x ∈ sortDedup l ↔ x ∈ l := by
  induction l with
  | nil => simp [sortDedup]
  | cons a l ih =>
    show x ∈ keyUnion [a] (sortDedup l) ↔ _
    rw [mem_keyUnion]
    simp [ih]

theorem sorted_sortDedup {α : Type} [LinearOrder α] (l : List α) :
    List.Pairwise (fun a b => a < b) (sortDedup l) := by
  induction l with
  | nil => simp [sortDedup]
  | cons a l ih =>
    show List.Pairwise _ (keyUnion [a] (sortDedup l))
    exact sorted_keyUnion (List.pairwise_singleton _ a) ih

theorem rekey_validity_total {α : Type} [LinearOrder α] {dict : DictionaryColumn α}
    (hwf : wf dict) {i : Nat} (hi : i < rowCount dict) (K : List α) :
    ∃ b, (rekey dict K).validity[i]? = some b := by
  have hlen : i < (rekey dict K).validity.length := by
    rw [(rekey_lengths dict K).2, hwf.1]
    simpa [rowCount] using hi
  exact ⟨_, List.getElem?_eq_getElem hlen⟩

theorem row_data_of_wf {α : Type} [LinearOrder α] {dict : DictionaryColumn α}
    (hwf : wf dict) {i : Nat} (hi : i < rowCount dict) :
    ∃ d v, dict.indices[i]? = some d ∧ dict.validity[i]? = some v := by
  have hiv : i < dict.validity.length := hi
  have hii : i < dict.indices.length := by rw [hwf.1]; exact hiv
  exact ⟨_, _, List.getElem?_eq_getElem hii, List.getElem?_eq_getElem hiv⟩

/-- C2: for every dictionary column dict and every key list keys_to_remove, a
row of remove_keys(dict, keys_to_remove) is null iff it was already null in
dict, or it was valid and its logical value is a member of keys_to_remove;
all other rows stay valid and keep their logical value. -/
theorem remove_keys_null_iff {α : Type} [LinearOrder α]
    (dict : DictionaryColumn α) (keys_to_remove : List α)
    (hwf : wf dict) (i : Nat) (hi : i < rowCount dict) :
    ((remove_keys dict keys_to_remove).validity[i]? = some false ↔
      dict.validity[i]? = some false ∨
        (dict.validity[i]? = some true ∧
          ∃ x, logicalValue dict i = some x ∧ x ∈ keys_to_remove)) ∧
    ((remove_keys dict keys_to_remove).validity[i]? = some true →
      (remove_keys dict keys_to_remove).validity[i]? = dict.validity[i]? ∧
      logicalValue (remove_keys dict keys_to_remove) i = logicalValue dict i) := by
  obtain ⟨d, v, hd, hv⟩ := row_data_of_wf hwf hi
  have hvalid := rekey_valid_iff (K := keyDifference dict.keys
    (sortDedup keys_to_remove)) hwf hi
  have hlog := rekey_logicalValue (K := keyDifference dict.keys
    (sortDedup keys_to_remove)) hwf hi
  obtain ⟨b, hb⟩ := rekey_validity_total hwf hi
    (keyDifference dict.keys (sortDedup keys_to_remove))
  rw [remove_keys] at *
  cases v with
  | false =>
    have hnull := rekey_null (K := keyDifference dict.keys
      (sortDedup keys_to_remove)) hd hv
    refine ⟨by simp [hnull, hv], ?_⟩
    intro htrue
    rw [hnull] at htrue
    simp at htrue
  | true =>
    have hdk := wf_index_lt hwf hd hv
    have hval : logicalValue dict i = some dict.keys[d] := by
      rw [logicalValue_valid hd hv, List.getElem?_eq_getElem hdk]
    have hmemkeys : dict.keys[d] ∈ dict.keys := List.getElem_mem hdk
    have hKiff : dict.keys[d] ∈ keyDifference dict.keys (sortDedup keys_to_remove)
        ↔ dict.keys[d] ∉ keys_to_remove := by
      rw [mem_keyDifference, mem_sortDedup]
      simp [hmemkeys]
    constructor
    · constructor
      · intro hfalse
        by_cases hmem : dict.keys[d] ∈ keys_to_remove
        · exact Or.inr ⟨hv, dict.keys[d], hval, hmem⟩
        · exfalso
          have : (rekey dict (keyDifference dict.keys
              (sortDedup keys_to_remove))).validity[i]? = some true :=
            hvalid.mpr ⟨hv, dict.keys[d], hval, hKiff.mpr hmem⟩
          rw [hfalse] at this
          simp at this
      · rintro (hcase | ⟨hvt, x, hx, hxm⟩)
        · rw [hv] at hcase; simp at hcase
        · rw [hval] at hx
          obtain rfl : x = dict.keys[d] := by
            injection hx.symm
          cases hbv : b with
          | true =>
            rw [hbv] at hb
            have := hvalid.mp hb
            obtain ⟨hvt2, y, hy, hyK⟩ := this
            rw [hval] at hy
            obtain rfl : y = dict.keys[d] := by injection hy.symm
            exact absurd hxm (by simpa using (hKiff.mp hyK))
          | false => rw [hbv] at hb; exact hb
    · intro htrue
      have := hvalid.mp htrue
      obtain ⟨hvt2, y, hy, hyK⟩ := this
      rw [hval] at hy
      obtain rfl : y = dict.keys[d] := by injection hy.symm
      refine ⟨by rw [htrue, hv], ?_⟩
      rw [hlog, hval]
      simp [hyK]


/-- Witness for C2 at the section 8 scenario: removing key 20 from the
example dictionary turns exactly row 2 (whose logical value is 20) null. -/
theorem remove_keys_null_iff_witness :
    wf exDict ∧ 2 < rowCount exDict ∧
    (((remove_keys exDict [20]).validity[2]? = some false ↔
      exDict.validity[2]? = some false ∨
        (exDict.validity[2]? = some true ∧
          ∃ x, logicalValue exDict 2 = some x ∧ x ∈ [20])) ∧
    ((remove_keys exDict [20]).validity[2]? = some true →
      (remove_keys exDict [20]).validity[2]? = exDict.validity[2]? ∧
      logicalValue (remove_keys exDict [20]) 2 = logicalValue exDict 2)) :=
  ⟨by decide, by decide,
    remove_keys_null_iff exDict [20] (by decide) 2 (by decide)⟩

/-- C3: the key set of add_keys(dict, new_keys) contains exactly the keys of
dict.keys together with the non-null (deduplicated) values of new_keys and no
other keys, and add_keys invalidates no rows: every row valid in dict is
valid in the result with the same logical value. -/
theorem add_keys_spec {α : Type} [LinearOrder α] (dict : DictionaryColumn α)
    (new_keys : List (Option α)) (hwf : wf dict) :
    (∀ x, x ∈ (add_keys dict new_keys).keys ↔
      x ∈ dict.keys ∨ some x ∈ new_keys) ∧
    (∀ i, i < rowCount dict → dict.validity[i]? = some true →
      (add_keys dict new_keys).validity[i]? = some true ∧
      logicalValue (add_keys dict new_keys) i = logicalValue dict i) := by
  constructor
  · intro x
    rw [add_keys, rekey_keys, mem_keyUnion, mem_sortDedup]
    simp [non_null]
  · intro i hi hv
    have hiv : i < dict.validity.length := hi
    have hii : i < dict.indices.length := by rw [hwf.1]; exact hiv
    obtain ⟨d, hd⟩ : ∃ d, dict.indices[i]? = some d :=
      ⟨_, List.getElem?_eq_getElem hii⟩
    have hdk := wf_index_lt hwf hd hv
    have hval : logicalValue dict i = some dict.keys[d] := by
      rw [logicalValue_valid hd hv, List.getElem?_eq_getElem hdk]
    have hmem : dict.keys[d] ∈
        keyUnion dict.keys (sortDedup (non_null new_keys)) :=
      mem_keyUnion.mpr (Or.inl (List.getElem_mem hdk))
    refine ⟨rekey_valid_iff hwf hi |>.mpr ⟨hv, dict.keys[d], hval, hmem⟩, ?_⟩
    rw [add_keys, rekey_logicalValue hwf hi, hval]
    simp [hmem]

/-- Witness for C3 at the example dictionary with new keys
[some 5, none, some 25, some 5]. -/
theorem add_keys_spec_witness :
    wf exDict ∧
    ((∀ x, x ∈ (add_keys exDict [some 5, none, some 25, some 5]).keys ↔
      x ∈ exDict.keys ∨ some x ∈ [some 5, none, some 25, some 5]) ∧
    (∀ i, i < rowCount exDict → exDict.validity[i]? = some true →
      (add_keys exDict [some 5, none, some 25, some 5]).validity[i]? =
        some true ∧
      logicalValue (add_keys exDict [some 5, none, some 25, some 5]) i =
        logicalValue exDict i)) :=
  ⟨by decide, add_keys_spec exDict [some 5, none, some 25, some 5] (by decide)⟩

/-- C9: each of add_keys, remove_keys, remove_unused_keys and set_keys fails
with an InvalidArgument-kind error exactly when the input column is not
dictionary-encoded or the value domain of its keys differs in type from the
supplied key list; remove_unused_keys takes no key list, so for it only the
first condition applies. -/
theorem checked_ops_invalid_argument {α : Type} [LinearOrder α]
    (c : InputColumn α) (ks : TypedKeyList α) (rks : TypedKeys α)
    (sks : TypedKeyList α) :
    (checked_add_keys c ks = Except.error DictError.InvalidArgument ↔
      isDictionary c = false ∨ inputTag c ≠ ks.tag) ∧
    (checked_remove_keys c rks = Except.error DictError.InvalidArgument ↔
      isDictionary c = false ∨ inputTag c ≠ rks.tag) ∧
    (checked_remove_unused_keys c = Except.error DictError.InvalidArgument ↔
      isDictionary c = false) ∧
    (checked_set_keys c sks = Except.error DictError.InvalidArgument ↔
      isDictionary c = false ∨ inputTag c ≠ sks.tag) := by
  cases c with
  | dictionary d =>
    refine ⟨?_, ?_, ?_, ?_⟩
    · by_cases h : d.tag = ks.tag <;>
        simp [checked_add_keys, isDictionary, inputTag, h]
    · by_cases h : d.tag = rks.tag <;>
        simp [checked_remove_keys, isDictionary, inputTag, h]
    · simp [checked_remove_unused_keys, isDictionary]
    · by_cases h : d.tag = sks.tag <;>
        simp [checked_set_keys, isDictionary, inputTag, h]
  | non_dictionary t =>
    simp [checked_add_keys, checked_remove_keys, checked_remove_unused_keys,
      checked_set_keys, isDictionary, inputTag]

theorem key_used_iff {j : Nat} {ds : List Nat} {vs : List Bool} :
    key_used j ds vs = true ↔
      ∃ i : Nat, ds[i]? = some j ∧ vs[i]? = some true := by
  induction ds generalizing vs with
  | nil =>
    cases vs <;> simp [key_used]
  | cons d ds ih =>
    cases vs with
    | nil => simp [key_used]
    | cons v vs =>
      simp only [key_used, Bool.or_eq_true, Bool.and_eq_true,
        decide_eq_true_eq, ih]
      constructor
      · rintro (⟨hv, rfl⟩ | ⟨i, hd, hv⟩)
        · exact ⟨0, by simp, by simp [hv]⟩
        · exact ⟨i + 1, by simpa using hd, by simpa using hv⟩
      · rintro ⟨i, hd, hv⟩
        cases i with
        | zero =>
          simp only [List.getElem?_cons_zero, Option.some.injEq] at hd hv
          exact Or.inl ⟨hv, hd⟩
        | succ i =>
          exact Or.inr ⟨i, by simpa using hd, by simpa using hv⟩

theorem filterMap_getElem? {α : Type} (ps : List Nat) (l : List α)
    (hps : ∀ j ∈ ps, j < l.length) (a : Nat) :
    (ps.filterMap (fun j => l[j]?))[a]? = ps[a]?.bind (fun j => l[j]?) := by
  induction ps generalizing a with
  | nil => simp
  | cons p ps ih =>
    have hp : p < l.length := hps p (by simp)
    obtain ⟨x, hx⟩ : ∃ x, l[p]? = some x := ⟨_, List.getElem?_eq_getElem hp⟩
    cases a with
    | zero => simp [List.filterMap_cons, hx]
    | succ a =>
      simp only [List.filterMap_cons, hx, List.getElem?_cons_succ]
      exact ih (fun j hj => hps j (by simp [hj])) a

theorem filterMap_getElem?_length {α : Type} (ps : List Nat) (l : List α)
    (hps : ∀ j ∈ ps, j < l.length) :
    (ps.filterMap (fun j => l[j]?)).length = ps.length := by
  induction ps with
  | nil => simp
  | cons p ps ih =>
    have hp : p < l.length := hps p (by simp)
    obtain ⟨x, hx⟩ : ∃ x, l[p]? = some x := ⟨_, List.getElem?_eq_getElem hp⟩
    simp only [List.filterMap_cons, hx, List.length_cons]
    rw [ih (fun j hj => hps j (by simp [hj]))]

theorem mem_keptPositions {α : Type} {dict : DictionaryColumn α} {j : Nat} :
    j ∈ keptPositions dict ↔
      j < dict.keys.length ∧ key_used j dict.indices dict.validity = true := by
  simp [keptPositions, List.mem_filter, List.mem_range]

theorem sorted_keptPositions {α : Type} (dict : DictionaryColumn α) :
    List.Pairwise (fun a b => a < b) (keptPositions dict) :=
  List.Pairwise.sublist (List.filter_sublist _) (List.pairwise_lt_range _)

theorem nodup_keptPositions {α : Type} (dict : DictionaryColumn α) :
    (keptPositions dict).Nodup :=
  (sorted_keptPositions dict).imp Nat.ne_of_lt

theorem filter_range_getElem? (p : Nat → Bool) {n j : Nat} (hj : j < n)
    (hp : p j = true) :
    ((List.range n).filter p)[((List.range j).filter p).length]? = some j := by
  induction n with
  | zero => exact absurd hj (Nat.not_lt_zero j)
  | succ n ih =>
    rw [List.range_succ, List.filter_append]
    rcases Nat.lt_or_ge j n with hjn | hjn
    · have h1 := ih hjn
      have h2 : ((List.range j).filter p).length <
          ((List.range n).filter p).length := (List.getElem?_eq_some.mp h1).1
      rw [List.getElem?_append_left h2]
      exact h1
    · have hj' : j = n := by omega
      subst hj'
      have hfilt : List.filter p [j] = [j] := by simp [hp]
      rw [hfilt, List.getElem?_append_right (Nat.le_refl _)]
      simp

theorem keptPositions_getElem? {α : Type} {dict : DictionaryColumn α} {j : Nat}
    (hj : j < dict.keys.length)
    (hk : key_used j dict.indices dict.validity = true) :
    (keptPositions dict)[usedBefore dict j]? = some j :=
  filter_range_getElem? _ hj hk

theorem usedBefore_lt {α : Type} {dict : DictionaryColumn α} {j : Nat}
    (hj : j < dict.keys.length)
    (hk : key_used j dict.indices dict.validity = true) :
    usedBefore dict j < (keptPositions dict).length :=
  (List.getElem?_eq_some.mp (keptPositions_getElem? hj hk)).1

theorem keptPositions_bound {α : Type} (dict : DictionaryColumn α) :
    ∀ j ∈ keptPositions dict, j < dict.keys.length :=
  fun j hj => (mem_keptPositions.mp hj).1

theorem remove_unused_keys_length {α : Type} (dict : DictionaryColumn α) :
    (remove_unused_keys dict).keys.length = (keptPositions dict).length := by
  rw [remove_unused_keys]
  exact filterMap_getElem?_length _ _ (keptPositions_bound dict)

theorem remove_unused_keys_getElem? {α : Type} {dict : DictionaryColumn α}
    {j : Nat} (hj : j < dict.keys.length)
    (hk : key_used j dict.indices dict.validity = true) :
    (remove_unused_keys dict).keys[usedBefore dict j]? = dict.keys[j]? := by
  rw [remove_unused_keys]
  rw [filterMap_getElem? _ _ (keptPositions_bound dict),
    keptPositions_getElem? hj hk]
  rfl

theorem relUnused_getElem? {α : Type} {dict : DictionaryColumn α} {d : Nat}
    (hd : d < dict.keys.length) :
    (relUnused dict)[d]? =
      some (if key_used d dict.indices dict.validity
        then some (usedBefore dict d) else none) := by
  simp [relUnused, List.getElem?_range hd]

theorem relUnused_getElem?_oob {α : Type} {dict : DictionaryColumn α} {d : Nat}
    (hd : dict.keys.length ≤ d) :
    (relUnused dict)[d]? = none := by
  have hlen : (relUnused dict).length ≤ d := by simpa [relUnused] using hd
  exact List.getElem?_eq_none hlen

theorem remove_unused_row {α : Type} {dict : DictionaryColumn α} {i d : Nat}
    {v : Bool}
    (hd : dict.indices[i]? = some d) (hv : dict.validity[i]? = some v) :
    (remove_unused_keys dict).indices[i]? =
      some (remapRow (relUnused dict) d v).1 ∧
    (remove_unused_keys dict).validity[i]? =
      some (remapRow (relUnused dict) d v).2 := by
  constructor <;> simp [remove_unused_keys, remap, remapRows_getElem?, hd, hv]

theorem remapRow_relUnused_valid {α : Type} {dict : DictionaryColumn α}
    {i d : Nat}
    (hd : dict.indices[i]? = some d) (hv : dict.validity[i]? = some true)
    (hdn : d < dict.keys.length) :
    remapRow (relUnused dict) d true = (usedBefore dict d, true) := by
  have hk : key_used d dict.indices dict.validity = true :=
    key_used_iff.mpr ⟨i, hd, hv⟩
  simp [remapRow, relUnused_getElem? hdn, hk]

theorem remapRow_relUnused_oob {α : Type} {dict : DictionaryColumn α} {d : Nat}
    (hdn : dict.keys.length ≤ d) :
    remapRow (relUnused dict) d true = (0, false) := by
  simp [remapRow, relUnused_getElem?_oob hdn]

theorem remove_unused_lengths {α : Type} (dict : DictionaryColumn α) :
    (remove_unused_keys dict).indices.length =
      min dict.indices.length dict.validity.length ∧
    (remove_unused_keys dict).validity.length =
      min dict.indices.length dict.validity.length := by
  constructor <;> simp [remove_unused_keys, remap, remapRows_length]

theorem remove_unused_preserves {α : Type} [LinearOrder α]
    {dict : DictionaryColumn α} (hwf : wf dict) {i : Nat}
    (hi : i < rowCount dict) :
    (remove_unused_keys dict).validity[i]? = dict.validity[i]? ∧
    logicalValue (remove_unused_keys dict) i = logicalValue dict i := by
  obtain ⟨d, v, hd, hv⟩ := row_data_of_wf hwf hi
  cases v with
  | false =>
    have hr := remove_unused_row hd hv
    rw [remapRow_false] at hr
    have hr2 : (remove_unused_keys dict).validity[i]? = some false := by
      simpa using hr.2
    rw [hr2, hv, logicalValue_null hv, logicalValue_null hr2]
    exact ⟨rfl, rfl⟩
  | true =>
    have hdn := wf_index_lt hwf hd hv
    have hr := remove_unused_row hd hv
    rw [remapRow_relUnused_valid hd hv hdn] at hr
    refine ⟨by rw [hr.2, hv], ?_⟩
    rw [logicalValue_valid hr.1 hr.2, logicalValue_valid hd hv]
    exact remove_unused_keys_getElem? hdn (key_used_iff.mpr ⟨i, hd, hv⟩)

theorem sorted_filterMap_getElem {α : Type} [LinearOrder α] {ps : List Nat}
    {l : List α}
    (hps : ∀ j ∈ ps, j < l.length)
    (hsort : List.Pairwise (fun a b => a < b) ps)
    (hl : List.Pairwise (fun a b => a < b) l) :
    List.Pairwise (fun a b => a < b) (ps.filterMap (fun j => l[j]?)) := by
  have hlen : (ps.filterMap (fun j => l[j]?)).length = ps.length :=
    filterMap_getElem?_length ps l hps
  rw [List.pairwise_iff_getElem]
  intro a b ha hb hab
  have ha' : a < ps.length := by omega
  have hb' : b < ps.length := by omega
  have hpa : ps[a] < l.length := hps ps[a] (List.getElem_mem ha')
  have hpb : ps[b] < l.length := hps ps[b] (List.getElem_mem hb')
  have hga : (ps.filterMap (fun j => l[j]?))[a]? = some l[ps[a]] := by
    rw [filterMap_getElem? ps l hps a, List.getElem?_eq_getElem ha']
    simpa using List.getElem?_eq_getElem hpa
  have hgb : (ps.filterMap (fun j => l[j]?))[b]? = some l[ps[b]] := by
    rw [filterMap_getElem? ps l hps b, List.getElem?_eq_getElem hb']
    simpa using List.getElem?_eq_getElem hpb
  rw [List.getElem?_eq_getElem ha] at hga
  rw [List.getElem?_eq_getElem hb] at hgb
  rw [Option.some.injEq] at hga hgb
  rw [hga, hgb]
  have hplt : ps[a] < ps[b] := List.pairwise_iff_getElem.mp hsort a b ha' hb' hab
  exact List.pairwise_iff_getElem.mp hl ps[a] ps[b] hpa hpb hplt

theorem remove_unused_wf {α : Type} [LinearOrder α] {dict : DictionaryColumn α}
    (hwf : wf dict) : wf (remove_unused_keys dict) := by
  refine ⟨?_, ?_, ?_⟩
  · rw [(remove_unused_lengths dict).1, (remove_unused_lengths dict).2]
  · exact sorted_filterMap_getElem (keptPositions_bound dict)
      (sorted_keptPositions dict) hwf.2.1
  · intro i hi hvalid
    rw [(remove_unused_lengths dict).1] at hi
    have hii : i < dict.indices.length := lt_of_lt_of_le hi (Nat.min_le_left _ _)
    have hiv : i < dict.validity.length :=
      lt_of_lt_of_le hi (Nat.min_le_right _ _)
    obtain ⟨d, hd⟩ : ∃ d, dict.indices[i]? = some d :=
      ⟨_, List.getElem?_eq_getElem hii⟩
    obtain ⟨v, hv⟩ : ∃ v, dict.validity[i]? = some v :=
      ⟨_, List.getElem?_eq_getElem hiv⟩
    have hr := remove_unused_row hd hv
    rw [List.getD_eq_getElem?_getD, hr.2] at hvalid
    rw [List.getD_eq_getElem?_getD, hr.1]
    cases v with
    | false => rw [remapRow_false] at hvalid; simp at hvalid
    | true =>
      by_cases hdn : d < dict.keys.length
      · rw [remapRow_relUnused_valid hd hv hdn]
        have := usedBefore_lt hdn (key_used_iff.mpr ⟨i, hd, hv⟩)
        simpa [remove_unused_keys_length] using this
      · rw [remapRow_relUnused_oob (Nat.le_of_not_lt hdn)] at hvalid
        simp at hvalid

theorem add_keys_preserves_row {α : Type} [LinearOrder α]
    {dict : DictionaryColumn α} (new_keys : List (Option α)) (hwf : wf dict)
    {i : Nat} (hi : i < rowCount dict) :
    (add_keys dict new_keys).validity[i]? = dict.validity[i]? ∧
    logicalValue (add_keys dict new_keys) i = logicalValue dict i := by
  obtain ⟨d, v, hd, hv⟩ := row_data_of_wf hwf hi
  cases v with
  | false =>
    have hn := rekey_null
      (K := keyUnion dict.keys (sortDedup (non_null new_keys))) hd hv
    rw [add_keys, hn, hv, logicalValue_null hv, logicalValue_null hn]
    exact ⟨rfl, rfl⟩
  | true =>
    have hdk := wf_index_lt hwf hd hv
    have hval : logicalValue dict i = some dict.keys[d] := by
      rw [logicalValue_valid hd hv, List.getElem?_eq_getElem hdk]
    have hmem : dict.keys[d] ∈
        keyUnion dict.keys (sortDedup (non_null new_keys)) :=
      mem_keyUnion.mpr (Or.inl (List.getElem_mem hdk))
    have hvalid := (rekey_valid_iff
      (K := keyUnion dict.keys (sortDedup (non_null new_keys))) hwf hi).mpr
      ⟨hv, _, hval, hmem⟩
    refine ⟨by rw [add_keys, hvalid, hv], ?_⟩
    rw [add_keys, rekey_logicalValue hwf hi, hval]
    simp [hmem]

/-- C4: remove_unused_keys(add_keys(dict, dict.keys)) is logically equivalent
to dict: for every row, the result is null exactly when the dict row is null,
and valid rows have the same logical value. -/
theorem round_trip_identity {α : Type} [LinearOrder α]
    (dict : DictionaryColumn α) (hwf : wf dict) (i : Nat)
    (hi : i < rowCount dict) :
    (remove_unused_keys (add_keys dict (dict.keys.map some))).validity[i]? =
      dict.validity[i]? ∧
    logicalValue (remove_unused_keys (add_keys dict (dict.keys.map some))) i =
      logicalValue dict i := by
  have hsorted : List.Pairwise (fun a b => a < b)
      (keyUnion dict.keys (sortDedup (non_null (dict.keys.map some)))) :=
    sorted_keyUnion hwf.2.1 (sorted_sortDedup _)
  have hwf1 : wf (add_keys dict (dict.keys.map some)) := rekey_wf hsorted
  have hrc : rowCount (add_keys dict (dict.keys.map some)) = rowCount dict :=
    rekey_rowCount hwf _
  have hi1 : i < rowCount (add_keys dict (dict.keys.map some)) := by
    rw [hrc]; exact hi
  have h1 := add_keys_preserves_row (dict.keys.map some) hwf hi
  have h2 := remove_unused_preserves hwf1 hi1
  exact ⟨h2.1.trans h1.1, h2.2.trans h1.2⟩

/-- Witness for C4 at the example dictionary with an unused key and a null
row. -/
theorem round_trip_identity_witness :
    wf exDict2 ∧ 2 < rowCount exDict2 ∧
    ((remove_unused_keys (add_keys exDict2 (exDict2.keys.map some))).validity[2]?
        = exDict2.validity[2]? ∧
    logicalValue (remove_unused_keys
        (add_keys exDict2 (exDict2.keys.map some))) 2 =
      logicalValue exDict2 2) :=
  ⟨by decide, by decide, round_trip_identity exDict2 (by decide) 2 (by decide)⟩

theorem dictionaryColumn_ext {α : Type} {a b : DictionaryColumn α}
    (h1 : a.keys = b.keys) (h2 : a.indices = b.indices)
    (h3 : a.validity = b.validity) : a = b := by
  cases a
  cases b
  dsimp at h1 h2 h3
  subst h1
  subst h2
  subst h3
  rfl

theorem key_used_remove_unused {α : Type} (dict : DictionaryColumn α) {j : Nat}
    (hj : j < (remove_unused_keys dict).keys.length) :
    key_used j (remove_unused_keys dict).indices
      (remove_unused_keys dict).validity = true := by
  rw [remove_unused_keys_length] at hj
  obtain ⟨j₀, hj₀⟩ : ∃ j₀, (keptPositions dict)[j]? = some j₀ :=
    ⟨_, List.getElem?_eq_getElem hj⟩
  obtain ⟨hj₀n, hused⟩ := mem_keptPositions.mp (List.getElem?_mem hj₀)
  have hgb := keptPositions_getElem? hj₀n hused
  have hub : usedBefore dict j₀ = j :=
    List.getElem?_inj (usedBefore_lt hj₀n hused) (nodup_keptPositions dict)
      (by rw [hgb, hj₀])
  obtain ⟨i, hd, hv⟩ := key_used_iff.mp hused
  have hr := remove_unused_row hd hv
  rw [remapRow_relUnused_valid hd hv hj₀n] at hr
  exact key_used_iff.mpr ⟨i, by rw [hr.1, hub], hr.2⟩

theorem usedBefore_remove_unused {α : Type} (dict : DictionaryColumn α)
    {j : Nat} (hj : j ≤ (remove_unused_keys dict).keys.length) :
    usedBefore (remove_unused_keys dict) j = j := by
  unfold usedBefore
  rw [List.filter_eq_self.mpr, List.length_range]
  intro k hk
  exact key_used_remove_unused dict (lt_of_lt_of_le (List.mem_range.mp hk) hj)

theorem filterMap_range_getElem? {α : Type} (l : List α) :
    (List.range l.length).filterMap (fun j => l[j]?) = l := by
  apply List.ext_getElem?
  intro a
  rw [filterMap_getElem? _ _ (fun j hj => List.mem_range.mp hj) a]
  by_cases ha : a < l.length
  · rw [List.getElem?_range ha]
    rfl
  · rw [List.getElem?_eq_none (by simpa using Nat.le_of_not_lt ha),
      List.getElem?_eq_none (Nat.le_of_not_lt ha)]
    rfl

theorem keptPositions_remove_unused {α : Type} (dict : DictionaryColumn α) :
    keptPositions (remove_unused_keys dict) =
      List.range (remove_unused_keys dict).keys.length := by
  unfold keptPositions
  exact List.filter_eq_self.mpr
    (fun j hj => key_used_remove_unused dict (List.mem_range.mp hj))

theorem remove_unused_idem_keys {α : Type} (dict : DictionaryColumn α) :
    (remove_unused_keys (remove_unused_keys dict)).keys =
      (remove_unused_keys dict).keys := by
  show (keptPositions (remove_unused_keys dict)).filterMap _ = _
  rw [keptPositions_remove_unused]
  exact filterMap_range_getElem? (remove_unused_keys dict).keys

theorem remove_unused_idem_row {α : Type} (dict : DictionaryColumn α)
    (i : Nat) :
    (remove_unused_keys (remove_unused_keys dict)).indices[i]? =
      (remove_unused_keys dict).indices[i]? ∧
    (remove_unused_keys (remove_unused_keys dict)).validity[i]? =
      (remove_unused_keys dict).validity[i]? := by
  by_cases him : i < min dict.indices.length dict.validity.length
  · have hii : i < dict.indices.length :=
      lt_of_lt_of_le him (Nat.min_le_left _ _)
    have hiv : i < dict.validity.length :=
      lt_of_lt_of_le him (Nat.min_le_right _ _)
    obtain ⟨d, hd⟩ : ∃ d, dict.indices[i]? = some d :=
      ⟨_, List.getElem?_eq_getElem hii⟩
    obtain ⟨v, hv⟩ : ∃ v, dict.validity[i]? = some v :=
      ⟨_, List.getElem?_eq_getElem hiv⟩
    have hr := remove_unused_row hd hv
    cases v with
    | false =>
      rw [remapRow_false] at hr
      have he1 : (remove_unused_keys dict).indices[i]? = some 0 := by
        simpa using hr.1
      have he2 : (remove_unused_keys dict).validity[i]? = some false := by
        simpa using hr.2
      have hr2 := remove_unused_row he1 he2
      rw [remapRow_false] at hr2
      rw [hr2.1, hr2.2, hr.1, hr.2]
      exact ⟨rfl, rfl⟩
    | true =>
      by_cases hdn : d < dict.keys.length
      · rw [remapRow_relUnused_valid hd hv hdn] at hr
        have hub : usedBefore dict d < (remove_unused_keys dict).keys.length := by
          rw [remove_unused_keys_length]
          exact usedBefore_lt hdn (key_used_iff.mpr ⟨i, hd, hv⟩)
        have hr2 := remove_unused_row hr.1 hr.2
        rw [remapRow_relUnused_valid hr.1 hr.2 hub,
          usedBefore_remove_unused dict (Nat.le_of_lt hub)] at hr2
        rw [hr2.1, hr2.2, hr.1, hr.2]
        exact ⟨rfl, rfl⟩
      · rw [remapRow_relUnused_oob (Nat.le_of_not_lt hdn)] at hr
        have he1 : (remove_unused_keys dict).indices[i]? = some 0 := by
          simpa using hr.1
        have he2 : (remove_unused_keys dict).validity[i]? = some false := by
          simpa using hr.2
        have hr2 := remove_unused_row he1 he2
        rw [remapRow_false] at hr2
        rw [hr2.1, hr2.2, hr.1, hr.2]
        exact ⟨rfl, rfl⟩
  · have hlen := remove_unused_lengths dict
    have hlen2 := remove_unused_lengths (remove_unused_keys dict)
    have hm : min dict.indices.length dict.validity.length ≤ i :=
      Nat.le_of_not_lt him
    have h1 : (remove_unused_keys dict).indices[i]? = none :=
      List.getElem?_eq_none (by omega)
    have h2 : (remove_unused_keys dict).validity[i]? = none :=
      List.getElem?_eq_none (by omega)
    have h3 : (remove_unused_keys (remove_unused_keys dict)).indices[i]? =
        none := by
      refine List.getElem?_eq_none ?_
      have := hlen2.1
      omega
    have h4 : (remove_unused_keys (remove_unused_keys dict)).validity[i]? =
        none := by
      refine List.getElem?_eq_none ?_
      have := hlen2.2
      omega
    rw [h1, h2, h3, h4]
    exact ⟨rfl, rfl⟩

/-- C5: remove_unused_keys is idempotent — applying it twice yields the same
result (same key set, same indices, same validity) as one application;
equivalently, after one application every key of the result is referenced by
at least one valid row. -/
theorem remove_unused_keys_idempotent {α : Type} (dict : DictionaryColumn α) :
    remove_unused_keys (remove_unused_keys dict) = remove_unused_keys dict ∧
    ∀ j, j < (remove_unused_keys dict).keys.length →
      key_used j (remove_unused_keys dict).indices
        (remove_unused_keys dict).validity = true := by
  refine ⟨?_, fun j hj => key_used_remove_unused dict hj⟩
  refine dictionaryColumn_ext (remove_unused_idem_keys dict) ?_ ?_
  · exact List.ext_getElem? (fun i => (remove_unused_idem_row dict i).1)
  · exact List.ext_getElem? (fun i => (remove_unused_idem_row dict i).2)

theorem mem_foldl_keyUnion {α : Type} [LinearOrder α]
    (cols : List (DictionaryColumn α)) (acc : List α) {x : α} (hx : x ∈ acc) :
    x ∈ cols.foldl (fun acc c => keyUnion acc c.keys) acc := by
  induction cols generalizing acc with
  | nil => simpa using hx
  | cons c cols ih =>
    exact ih (keyUnion acc c.keys) (mem_keyUnion.mpr (Or.inl hx))

theorem mem_merged_keys_of {α : Type} [LinearOrder α]
    {cols : List (DictionaryColumn α)} {c : DictionaryColumn α} (hc : c ∈ cols)
    {x : α} (hx : x ∈ c.keys) : x ∈ merged_keys cols := by
  unfold merged_keys
  generalize hacc : ([] : List α) = acc
  clear hacc
  induction cols generalizing acc with
  | nil => simp at hc
  | cons c' cols ih =>
    rcases List.mem_cons.mp hc with rfl | hc
    · exact mem_foldl_keyUnion cols _ (mem_keyUnion.mpr (Or.inr hx))
    · exact ih hc _

theorem sorted_merged_keys {α : Type} [LinearOrder α]
    {cols : List (DictionaryColumn α)}
    (h : ∀ c ∈ cols, List.Pairwise (fun a b => a < b) c.keys) :
    List.Pairwise (fun a b => a < b) (merged_keys cols) := by
  unfold merged_keys
  have H : ∀ (cs : List (DictionaryColumn α)) (acc : List α),
      (∀ c ∈ cs, List.Pairwise (fun a b => a < b) c.keys) →
      List.Pairwise (fun a b => a < b) acc →
      List.Pairwise (fun a b => a < b)
        (cs.foldl (fun acc c => keyUnion acc c.keys) acc) := by
    intro cs
    induction cs with
    | nil => intro acc _ hacc; simpa using hacc
    | cons c cs ih =>
      intro acc hcs hacc
      exact ih _ (fun c' hc' => hcs c' (List.mem_cons_of_mem c hc'))
        (sorted_keyUnion hacc (hcs c (List.mem_cons_self c cs)))
  exact H cols [] h List.Pairwise.nil

theorem getElem_inj_of_sorted {α : Type} [LinearOrder α] {l : List α}
    (hl : List.Pairwise (fun a b => a < b) l) {p q : Nat}
    (hp : p < l.length) (hq : q < l.length) (h : l[p] = l[q]) : p = q := by
  rcases Nat.lt_trichotomy p q with hlt | heq | hgt
  · exact absurd h (ne_of_lt (List.pairwise_iff_getElem.mp hl p q hp hq hlt))
  · exact heq
  · exact absurd h.symm
      (ne_of_lt (List.pairwise_iff_getElem.mp hl q p hq hp hgt))

theorem logical_eq_iff_index_eq {α : Type} [LinearOrder α]
    {a b : DictionaryColumn α} (hwa : wf a) (hwb : wf b)
    (hk : b.keys = a.keys) {i j : Nat}
    (hi : i < rowCount a) (hj : j < rowCount b) :
    logicalValue a i = logicalValue b j ↔
      ((a.validity[i]? = some true ∧ b.validity[j]? = some true ∧
        a.indices[i]? = b.indices[j]?) ∨
       (a.validity[i]? = some false ∧ b.validity[j]? = some false)) := by
  obtain ⟨da, va, hda, hva⟩ := row_data_of_wf hwa hi
  obtain ⟨db, vb, hdb, hvb⟩ := row_data_of_wf hwb hj
  cases va with
  | true =>
    have hdak := wf_index_lt hwa hda hva
    have hvala : logicalValue a i = some a.keys[da] := by
      rw [logicalValue_valid hda hva, List.getElem?_eq_getElem hdak]
    cases vb with
    | true =>
      have hdbk := wf_index_lt hwb hdb hvb
      have hdbk' : db < a.keys.length := by rw [← hk]; exact hdbk
      have hvalb : logicalValue b j = some a.keys[db] := by
        rw [logicalValue_valid hdb hvb, hk, List.getElem?_eq_getElem hdbk']
      constructor
      · intro h
        rw [hvala, hvalb] at h
        have heq : da = db :=
          getElem_inj_of_sorted hwa.2.1 hdak hdbk' (Option.some.inj h)
        exact Or.inl ⟨hva, hvb, by rw [hda, hdb, heq]⟩
      · rintro (⟨-, -, h⟩ | ⟨h, -⟩)
        · rw [hda, hdb] at h
          have heq : da = db := Option.some.inj h
          subst heq
          rw [hvala, hvalb]
        · rw [hva] at h
          simp at h
    | false =>
      have hvalb : logicalValue b j = none := logicalValue_null hvb
      rw [hvala, hvalb, hva, hvb]
      simp
  | false =>
    have hvala : logicalValue a i = none := logicalValue_null hva
    cases vb with
    | true =>
      have hdbk := wf_index_lt hwb hdb hvb
      have hdbk' : db < a.keys.length := by rw [← hk]; exact hdbk
      have hvalb : logicalValue b j = some a.keys[db] := by
        rw [logicalValue_valid hdb hvb, hk, List.getElem?_eq_getElem hdbk']
      rw [hvala, hvalb, hva, hvb]
      simp
    | false =>
      have hvalb : logicalValue b j = none := logicalValue_null hvb
      rw [hvala, hvalb, hva, hvb]
      simp

theorem match_one_preserves {α : Type} [LinearOrder α]
    {c : DictionaryColumn α} (hwf : wf c) {m : List α}
    (hsub : ∀ x ∈ c.keys, x ∈ m) {i : Nat} (hi : i < rowCount c) :
    (match_one m c).validity[i]? = c.validity[i]? ∧
    logicalValue (match_one m c) i = logicalValue c i := by
  obtain ⟨d, v, hd, hv⟩ := row_data_of_wf hwf hi
  cases v with
  | false =>
    have hn := rekey_null (K := m) hd hv
    rw [match_one, hn, hv, logicalValue_null hv, logicalValue_null hn]
    exact ⟨rfl, rfl⟩
  | true =>
    have hdk := wf_index_lt hwf hd hv
    have hval : logicalValue c i = some c.keys[d] := by
      rw [logicalValue_valid hd hv, List.getElem?_eq_getElem hdk]
    have hmem : c.keys[d] ∈ m := hsub _ (List.getElem_mem hdk)
    have hvalid := (rekey_valid_iff (K := m) hwf hi).mpr ⟨hv, _, hval, hmem⟩
    refine ⟨by rw [match_one, hvalid, hv], ?_⟩
    rw [match_one, rekey_logicalValue hwf hi, hval]
    simp [hmem]

/-- C1: after match_columns over any N dictionary columns of one value
domain, every returned column carries the same merged key set, and two rows
(possibly from different output columns) are logically equal iff their
output indices are numerically equal: both rows valid with equal indices, or
both rows null. -/
theorem match_columns_comparable {α : Type} [LinearOrder α]
    (cols : List (DictionaryColumn α)) (hwf : ∀ c ∈ cols, wf c)
    (a b : DictionaryColumn α) (ha : a ∈ cols) (hb : b ∈ cols)
    (i j : Nat) (hi : i < rowCount a) (hj : j < rowCount b) :
    (∀ c', c' ∈ match_columns cols → c'.keys = merged_keys cols) ∧
    (logicalValue a i = logicalValue b j ↔
      ((match_one (merged_keys cols) a).validity[i]? = some true ∧
       (match_one (merged_keys cols) b).validity[j]? = some true ∧
       (match_one (merged_keys cols) a).indices[i]? =
         (match_one (merged_keys cols) b).indices[j]?) ∨
      ((match_one (merged_keys cols) a).validity[i]? = some false ∧
       (match_one (merged_keys cols) b).validity[j]? = some false)) := by
  have hsorted := sorted_merged_keys (fun c hc => (hwf c hc).2.1)
  have hwa' : wf (match_one (merged_keys cols) a) := rekey_wf hsorted
  have hwb' : wf (match_one (merged_keys cols) b) := rekey_wf hsorted
  have hia : i < rowCount (match_one (merged_keys cols) a) := by
    have h : rowCount (match_one (merged_keys cols) a) = rowCount a :=
      rekey_rowCount (hwf a ha) _
    rw [h]
    exact hi
  have hjb : j < rowCount (match_one (merged_keys cols) b) := by
    have h : rowCount (match_one (merged_keys cols) b) = rowCount b :=
      rekey_rowCount (hwf b hb) _
    rw [h]
    exact hj
  constructor
  · intro c' hc'
    obtain ⟨c, hc, rfl⟩ := List.mem_map.mp hc'
    rfl
  · have hpa := match_one_preserves (hwf a ha)
      (fun x hx => mem_merged_keys_of ha hx) hi
    have hpb := match_one_preserves (hwf b hb)
      (fun x hx => mem_merged_keys_of hb hx) hj
    rw [← hpa.2, ← hpb.2]
    exact logical_eq_iff_index_eq hwa' hwb' rfl hia hjb

/-- Witness for C1 at the two example columns: row 3 of the first column
(value 10) against row 1 of the second (value 15). -/
theorem match_columns_comparable_witness :
    (∀ c ∈ exCols, wf c) ∧ exDict ∈ exCols ∧ exDictB ∈ exCols ∧
    3 < rowCount exDict ∧ 1 < rowCount exDictB ∧
    ((∀ c', c' ∈ match_columns exCols → c'.keys = merged_keys exCols) ∧
    (logicalValue exDict 3 = logicalValue exDictB 1 ↔
      ((match_one (merged_keys exCols) exDict).validity[3]? = some true ∧
       (match_one (merged_keys exCols) exDictB).validity[1]? = some true ∧
       (match_one (merged_keys exCols) exDict).indices[3]? =
         (match_one (merged_keys exCols) exDictB).indices[1]?) ∨
      ((match_one (merged_keys exCols) exDict).validity[3]? = some false ∧
       (match_one (merged_keys exCols) exDictB).validity[1]? = some false))) :=
  ⟨by decide, by decide, by decide, by decide, by decide,
    match_columns_comparable exCols (by decide) exDict exDictB (by decide)
      (by decide) 3 1 (by decide) (by decide)⟩

theorem mapFrom_getElem? {σ τ : Type} (f : Nat → σ → τ) (s : Nat)
    (l : List σ) (i : Nat) :
    (mapFrom f s l)[i]? = l[i]?.map (f (s + i)) := by
  induction l generalizing s i with
  | nil => simp [mapFrom]
  | cons x xs ih =>
    cases i with
    | zero => simp [mapFrom]
    | succ i =>
      simp only [mapFrom, List.getElem?_cons_succ, ih (s + 1) i]
      have harith : s + 1 + i = s + (i + 1) := by omega
      rw [harith]

theorem mapFrom_length {σ τ : Type} (f : Nat → σ → τ) (s : Nat) (l : List σ) :
    (mapFrom f s l).length = l.length := by
  induction l generalizing s with
  | nil => rfl
  | cons x xs ih => simp [mapFrom, ih]

theorem columnsAt_getElem? {α β : Type}
    (groups : List (List (TableColumn α β))) (k : Nat) {gi : Nat}
    {g : List (TableColumn α β)} (hg : groups[gi]? = some g)
    (hschema : ∀ g₂ ∈ groups, (dictAt g₂ k).isSome = true)
    {d : DictionaryColumn α} (hgk : dictAt g k = some d) :
    (columnsAt groups k)[gi]? = some d := by
  induction groups generalizing gi with
  | nil => simp at hg
  | cons g₀ gs ih =>
    obtain ⟨d₀, hd₀⟩ := Option.isSome_iff_exists.mp
      (hschema g₀ (List.mem_cons_self g₀ gs))
    cases gi with
    | zero =>
      simp only [List.getElem?_cons_zero, Option.some.injEq] at hg
      subst hg
      simp only [columnsAt, List.filterMap_cons, hd₀]
      rw [hd₀] at hgk
      simpa using hgk
    | succ gi =>
      simp only [List.getElem?_cons_succ] at hg
      have := ih hg (fun g₂ hg₂ => hschema g₂ (List.mem_cons_of_mem g₀ hg₂))
      simpa [columnsAt, List.filterMap_cons, hd₀] using this

theorem match_tables_getElem? {α β : Type} [LinearOrder α]
    (groups : List (List (TableColumn α β))) (gi : Nat) :
    (match_tables groups)[gi]? = groups[gi]?.map (fun g =>
      mapFrom (fun k c =>
        match c with
        | TableColumn.dict d =>
          TableColumn.dict ((match_columns (columnsAt groups k)).getD gi d)
        | TableColumn.other o => TableColumn.other o) 0 g) := by
  rw [match_tables, mapFrom_getElem?]
  simp

theorem match_tables_dictAt {α β : Type} [LinearOrder α]
    (groups : List (List (TableColumn α β))) {gi k : Nat}
    {g : List (TableColumn α β)} (hg : groups[gi]? = some g)
    {d : DictionaryColumn α} (hgk : g[k]? = some (TableColumn.dict d))
    (hschema : ∀ g₂ ∈ groups, (dictAt g₂ k).isSome = true) :
    ∃ g', (match_tables groups)[gi]? = some g' ∧
      g'[k]? = some (TableColumn.dict
        (match_one (merged_keys (columnsAt groups k)) d)) := by
  refine ⟨_, by rw [match_tables_getElem?, hg]; rfl, ?_⟩
  rw [mapFrom_getElem?, hgk]
  have hcs : (columnsAt groups k)[gi]? = some d :=
    columnsAt_getElem? groups k hg hschema (by simp [dictAt, hgk])
  have hmc : (match_columns (columnsAt groups k))[gi]? =
      some (match_one (merged_keys (columnsAt groups k)) d) := by
    rw [match_columns, List.getElem?_map, hcs]
    rfl
  simp only [Nat.zero_add, Option.map_some']
  rw [List.getD_eq_getElem?_getD, hmc]
  rfl

/-- C6: in every operation that remaps indices (add_keys, remove_keys,
remove_unused_keys, set_keys, match_dictionaries over columns or over
tables), a row that is null in the input stays null in the output; no
operation turns a null row into a valid row. -/
theorem null_rows_preserved {α β : Type} [LinearOrder α]
    (dict : DictionaryColumn α) (new_keys : List (Option α))
    (keys_to_remove : List α) (set_ks : List (Option α))
    (cols : List (DictionaryColumn α))
    (groups : List (List (TableColumn α β))) (gi k : Nat)
    {i d : Nat}
    (hd : dict.indices[i]? = some d) (hv : dict.validity[i]? = some false) :
    (add_keys dict new_keys).validity[i]? = some false ∧
    (remove_keys dict keys_to_remove).validity[i]? = some false ∧
    (remove_unused_keys dict).validity[i]? = some false ∧
    (set_keys dict set_ks).validity[i]? = some false ∧
    (match_one (merged_keys cols) dict).validity[i]? = some false ∧
    (∀ g, groups[gi]? = some g → g[k]? = some (TableColumn.dict dict) →
      (∀ g₂ ∈ groups, (dictAt g₂ k).isSome = true) →
      ∃ g' d', (match_tables groups)[gi]? = some g' ∧
        g'[k]? = some (TableColumn.dict d') ∧
        d'.validity[i]? = some false) := by
  have hru : (remove_unused_keys dict).validity[i]? = some false := by
    have hr := remove_unused_row hd hv
    rw [remapRow_false] at hr
    simpa using hr.2
  refine ⟨by rw [add_keys]; exact rekey_null hd hv,
    by rw [remove_keys]; exact rekey_null hd hv, hru,
    by rw [set_keys]; exact rekey_null hd hv,
    by rw [match_one]; exact rekey_null hd hv, ?_⟩
  intro g hg hgk hschema
  obtain ⟨g', hg', hcol⟩ := match_tables_dictAt groups hg hgk hschema
  exact ⟨g', match_one (merged_keys (columnsAt groups k)) dict, hg', hcol,
    by rw [match_one]; exact rekey_null hd hv⟩

/-- Witness for C6 at the example dictionary with the null row 3 and the
example column groups. -/
theorem null_rows_preserved_witness :
    exDict2.indices[3]? = some 0 ∧ exDict2.validity[3]? = some false ∧
    ((add_keys exDict2 [some 5]).validity[3]? = some false ∧
    (remove_keys exDict2 [10]).validity[3]? = some false ∧
    (remove_unused_keys exDict2).validity[3]? = some false ∧
    (set_keys exDict2 [some 7]).validity[3]? = some false ∧
    (match_one (merged_keys exCols) exDict2).validity[3]? = some false ∧
    (∀ g, exGroups[0]? = some g →
      g[0]? = some (TableColumn.dict exDict2) →
      (∀ g₂ ∈ exGroups, (dictAt g₂ 0).isSome = true) →
      ∃ g' d', (match_tables exGroups)[0]? = some g' ∧
        g'[0]? = some (TableColumn.dict d') ∧
        d'.validity[3]? = some false)) :=
  ⟨by decide, by decide,
    null_rows_preserved exDict2 [some 5] [10] [some 7] exCols exGroups 0 0
      (show exDict2.indices[3]? = some 0 by decide)
      (show exDict2.validity[3]? = some false by decide)⟩

/-- C7: in match_tables, for every schema position that is not
dictionary-typed, the output column of every group is the input column
copied unchanged, and every output group preserves its input's column count
and (for dictionary positions, under the shared-schema precondition and
well-formed inputs) its row count. -/
theorem match_tables_pass_through {α β : Type} [LinearOrder α]
    (groups : List (List (TableColumn α β))) (gi k : Nat)
    (g : List (TableColumn α β)) (hg : groups[gi]? = some g) :
    ∃ g', (match_tables groups)[gi]? = some g' ∧
      g'.length = g.length ∧
      (∀ o : β, g[k]? = some (TableColumn.other o) →
        g'[k]? = some (TableColumn.other o)) ∧
      (∀ d : DictionaryColumn α, g[k]? = some (TableColumn.dict d) →
        (∀ g₂ ∈ groups, (dictAt g₂ k).isSome = true) →
        (∀ c ∈ columnsAt groups k, wf c) →
        ∃ d', g'[k]? = some (TableColumn.dict d') ∧
          rowCount d' = rowCount d) := by
  refine ⟨_, by rw [match_tables_getElem?, hg]; rfl, ?_, ?_, ?_⟩
  · exact mapFrom_length _ _ _
  · intro o hko
    rw [mapFrom_getElem?, hko]
    simp only [Nat.zero_add, Option.map_some']
  · intro dcol hkd hschema hwfs
    obtain ⟨g'', hg'', hcol⟩ := match_tables_dictAt groups hg hkd hschema
    rw [match_tables_getElem?, hg] at hg''
    have hgg := Option.some.inj hg''
    refine ⟨match_one (merged_keys (columnsAt groups k)) dcol, ?_, ?_⟩
    · rw [hgg]
      exact hcol
    · have hcs : (columnsAt groups k)[gi]? = some dcol :=
        columnsAt_getElem? groups k hg hschema (by simp [dictAt, hkd])
      exact rekey_rowCount (hwfs dcol (List.getElem?_mem hcs)) _

/-- Witness for C7 at the example groups: position 1 is the pass-through
column of the first group. -/
theorem match_tables_pass_through_witness :
    exGroups[0]? = some [TableColumn.dict exDict, TableColumn.other "p"] ∧
    (∃ g', (match_tables exGroups)[0]? = some g' ∧
      g'.length = [TableColumn.dict exDict, TableColumn.other "p"].length ∧
      (∀ o : String,
        [TableColumn.dict exDict, TableColumn.other "p"][1]? =
          some (TableColumn.other o) →
        g'[1]? = some (TableColumn.other o)) ∧
      (∀ d : DictionaryColumn Nat,
        [TableColumn.dict exDict, TableColumn.other "p"][1]? =
          some (TableColumn.dict d) →
        (∀ g₂ ∈ exGroups, (dictAt g₂ 1).isSome = true) →
        (∀ c ∈ columnsAt exGroups 1, wf c) →
        ∃ d', g'[1]? = some (TableColumn.dict d') ∧
          rowCount d' = rowCount d)) :=
  ⟨by decide, match_tables_pass_through exGroups 0 1
    [TableColumn.dict exDict, TableColumn.other "p"] (by decide)⟩

/-- C8: every key set produced by the engine (union, difference, the result
keys of add_keys, remove_keys, remove_unused_keys, set_keys, and the merged
keys of match_dictionaries) is strictly increasing with no duplicates, and
every valid row's index in every produced dictionary column is in bounds
(wf packages exactly these invariants; null entries never enter a key set
because non_null filters them before any key set is built). -/
theorem produced_key_sets_invariant {α : Type} [LinearOrder α]
    (A B : List α)
    (hA : List.Pairwise (fun a b => a < b) A)
    (hB : List.Pairwise (fun a b => a < b) B)
    (dict : DictionaryColumn α) (hwf : wf dict)
    (new_keys set_ks : List (Option α)) (keys_to_remove : List α)
    (cols : List (DictionaryColumn α)) (hcols : ∀ c ∈ cols, wf c) :
    List.Pairwise (fun a b => a < b) (keyUnion A B) ∧
    List.Pairwise (fun a b => a < b) (keyDifference A B) ∧
    List.Pairwise (fun a b => a < b) (merged_keys cols) ∧
    wf (add_keys dict new_keys) ∧
    wf (remove_keys dict keys_to_remove) ∧
    wf (remove_unused_keys dict) ∧
    wf (set_keys dict set_ks) ∧
    (∀ c ∈ cols, wf (match_one (merged_keys cols) c)) := by
  have hm := sorted_merged_keys (fun c hc => (hcols c hc).2.1)
  refine ⟨sorted_keyUnion hA hB, sorted_keyDifference hA, hm, ?_, ?_,
    remove_unused_wf hwf, ?_, ?_⟩
  · rw [add_keys]
    exact rekey_wf (sorted_keyUnion hwf.2.1 (sorted_sortDedup _))
  · rw [remove_keys]
    exact rekey_wf (sorted_keyDifference hwf.2.1)
  · rw [set_keys]
    exact rekey_wf (sorted_sortDedup _)
  · intro c hc
    rw [match_one]
    exact rekey_wf hm

/-- Witness for C8 at concrete sorted key lists and the example columns. -/
theorem produced_key_sets_invariant_witness :
    List.Pairwise (fun a b => a < b) [1, 5] ∧
    List.Pairwise (fun a b => a < b) [2, 5] ∧
    wf exDict ∧ (∀ c ∈ exCols, wf c) ∧
    (List.Pairwise (fun a b => a < b) (keyUnion [1, 5] [2, 5]) ∧
    List.Pairwise (fun a b => a < b) (keyDifference [1, 5] [2, 5]) ∧
    List.Pairwise (fun a b => a < b) (merged_keys exCols) ∧
    wf (add_keys exDict [some 5, none, some 25]) ∧
    wf (remove_keys exDict [20]) ∧
    wf (remove_unused_keys exDict) ∧
    wf (set_keys exDict [some 10, some 30]) ∧
    (∀ c ∈ exCols, wf (match_one (merged_keys exCols) c))) :=
  ⟨by decide, by decide, by decide, by decide,
    produced_key_sets_invariant [1, 5] [2, 5] (by decide) (by decide) exDict
      (by decide) [some 5, none, some 25] [some 10, some 30] [20] exCols
      (by decide)⟩

end CudfDict

namespace CudfScalar

/-- C10: the templated factory make_fixed_width_scalar returns a scalar that
is marked valid and holds exactly the given value, and
make_fixed_point_scalar always constructs its scalar with the validity flag
set to true (and the given value and scale). -/
theorem make_scalar_always_valid {τ : Type} (v : τ) (scale : Int) :
    (make_fixed_width_scalar v).is_valid = true ∧
    (make_fixed_width_scalar v).value = v ∧
    (make_fixed_point_scalar v scale).is_valid = true ∧
    (make_fixed_point_scalar v scale).value = v ∧
    (make_fixed_point_scalar v scale).scale = scale :=
  ⟨rfl, rfl, rfl, rfl, rfl⟩

end CudfScalar
